import Mathlib

/-!
# Verification of the termplanner task-management engine

Shallow embedding of `src/planner.py`: the due-date normalizer
(`parse_due_date`), the task-store operations (`add_todo`, `mark_done`,
`delete_todo`, `get_stats`, the dashboard/completed `SELECT` queries) and
the interactive view state machine of `main`, together with proofs of the
specification claims.
-/

namespace Planner

/-! ## Calendar dates

`datetime.date` values restricted to what the program uses: construction,
`timedelta` addition (days/weeks) and `isoformat`. Proleptic Gregorian
calendar, matching Python's `datetime`. -/

/-- A calendar date (year, month, day), as Python's `datetime.date`. -/
structure PDate where
  year : Nat
  month : Nat
  day : Nat
deriving DecidableEq, Repr

/-- Gregorian leap-year rule, as implemented by Python's `calendar.isleap`. -/
def isLeap (y : Nat) : Bool :=
  (y % 4 == 0 && y % 100 != 0) || y % 400 == 0

/-- Number of days in a month of a given year (Gregorian calendar). -/
def daysInMonth (y m : Nat) : Nat :=
  if m == 2 then (if isLeap y then 29 else 28)
  else if m == 4 || m == 6 || m == 9 || m == 11 then 30
  else 31

/-- The successor day of a date (Gregorian calendar). -/
def nextDay (d : PDate) : PDate :=
  if d.day < daysInMonth d.year d.month then ⟨d.year, d.month, d.day + 1⟩
  else if d.month < 12 then ⟨d.year, d.month + 1, 1⟩
  else ⟨d.year + 1, 1, 1⟩

/-- `date.max`, the largest representable Python date. -/
def dateMax : PDate := ⟨9999, 12, 31⟩

/-- Date plus a day count under the `date.max` cap: Python raises
`OverflowError` (modelled as `none`) as soon as the sum would pass
9999-12-31 (`date.min` cannot be reached by adding a nonnegative count). -/
def addDaysMax : PDate → Nat → Option PDate
  | d, 0 => some d
  | d, n + 1 => if d = dateMax then none else addDaysMax (nextDay d) n

/-- `d + timedelta(days=n)`: constructing `timedelta` itself raises
`OverflowError` when the day magnitude exceeds 999,999,999, and the
addition raises past `date.max`; `none` models either uncaught error. -/
def addDays (d : PDate) (n : Nat) : Option PDate :=
  if 999999999 < n then none else addDaysMax d n

/-- Decimal digits of `n`, most significant first (helper for zero-padding). -/
def natDigits (n : Nat) : List Char :=
  (Nat.toDigits 10 n)

/-- Zero-pad a decimal rendering of `n` to width `w`, as Python's `%0*d`. -/
def padNat (w n : Nat) : String :=
  let s := toString n
  if s.length < w then String.mk (List.replicate (w - s.length) '0') ++ s else s

/-- `date.isoformat()`: `YYYY-MM-DD` with zero padding. -/
def toISO (d : PDate) : String :=
  padNat 4 d.year ++ "-" ++ padNat 2 d.month ++ "-" ++ padNat 2 d.day

/-! ## String helpers for the normalizer

The normalizer works on the character list of the input.  `pyStrip` models
Python's `str.strip()` (drop whitespace at both ends) and `pyLower` models
`str.lower()` (ASCII case folding; the program only feeds it ASCII
keywords). -/

/-- `str.strip()`: remove leading and trailing whitespace. -/
def pyStrip (cs : List Char) : List Char :=
  ((cs.dropWhile Char.isWhitespace).reverse.dropWhile Char.isWhitespace).reverse

/-- `str.lower()` (ASCII fold, which covers every shortcut keyword). -/
def pyLower (cs : List Char) : List Char :=
  cs.map Char.toLower

/-- `s.startswith("+")`. -/
def startsWithPlus : List Char → Bool
  | '+' :: _ => true
  | _ => false

/-- `s.endswith(c)` for a single character `c`. -/
def endsWithChar (c : Char) (cs : List Char) : Bool :=
  match cs.getLast? with
  | some x => x == c
  | none => false

/-- `s[1:-1]`: drop the first and last character. -/
def innerChars (cs : List Char) : List Char :=
  (cs.drop 1).dropLast

/-- `s.isdigit()` restricted to ASCII: nonempty and all decimal digits. -/
def allDigits (cs : List Char) : Bool :=
  !cs.isEmpty && cs.all Char.isDigit

/-- `int(s)` for a string of decimal digits. -/
def digitsVal (cs : List Char) : Nat :=
  cs.foldl (fun a c => 10 * a + (c.toNat - 48)) 0

/-! ## The due-date normalizer (`parse_due_date`)

The general natural-language fallback is the external `dateutil` parser; it
is passed in as an oracle `nl` returning `some` parsed date or `none` on a
parse failure (Python: an exception). -/

/-- Body of `parse_due_date` after `s.strip().lower()`: the shortcut rules
in source order, then the `dateutil` fallback, returning the
(stripped, lowered) input itself when the fallback fails.  The `try` in
the source wraps only the `dateutil` call, so an `OverflowError` from the
date arithmetic of the `tomorrow`/`+Nd`/`+Nw` branches propagates uncaught
(modelled as `none`); every other path returns a string (`some`). -/
def normCoreList (nl : List Char → Option PDate) (today : PDate)
    (cs : List Char) : Option String :=
  if cs = [] then some ""
  else if cs = "today".data then some (toISO today)
  else if cs = "tomorrow".data then (addDays today 1).map toISO
  else if startsWithPlus cs && endsWithChar 'd' cs && allDigits (innerChars cs) then
    (addDays today (digitsVal (innerChars cs))).map toISO
  else if startsWithPlus cs && endsWithChar 'w' cs && allDigits (innerChars cs) then
    (addDays today (7 * digitsVal (innerChars cs))).map toISO
  else
    match nl cs with
    | some d => some (toISO d)
    | none => some (String.mk cs)

/-- `parse_due_date(s)`: strip, lower, then apply the shortcut rules and
fallback (`normCoreList`); `none` is an uncaught `OverflowError`. -/
def parse_due_date (nl : List Char → Option PDate) (today : PDate)
    (s : String) : Option String :=
  normCoreList nl today (pyLower (pyStrip s.data))

/-- The disjunction of the shortcut-rule guards of `parse_due_date`
(everything before the `dateutil` fallback). -/
def matchesShortcut (cs : List Char) : Bool :=
  cs.isEmpty || cs == "today".data || cs == "tomorrow".data ||
    (startsWithPlus cs && endsWithChar 'd' cs && allDigits (innerChars cs)) ||
    (startsWithPlus cs && endsWithChar 'w' cs && allDigits (innerChars cs))

/-! ## Tasks and the persisted store

A row of the `todos` table.  The store is the list of all rows ever
inserted, in insertion (rowid) order; rows are never physically removed
(`deleted` is a soft marker). -/

/-- A row of the `todos` table. -/
structure Task where
  id : Nat
  title : String
  category : String
  due : String
  done : Bool
  deleted : Bool
deriving DecidableEq, Repr

/-- The identity SQLite assigns to a fresh `INSERT` with an
`INTEGER PRIMARY KEY` column: one more than the largest existing rowid. -/
def nextId (s : List Task) : Nat :=
  (s.map Task.id).foldr max 0 + 1

/-- `add_todo`: insert a new row with the normalized due date,
`done=0, deleted=0` and a fresh identity.  When the normalizer raises
(`parse_due_date` is `none`) the real program aborts before inserting and
has no further observable states, so the total model continues with an
empty due text; no store or view-state theorem inspects the `due` field,
so the default is never observed. -/
def add_todo (nl : List Char → Option PDate) (today : PDate)
    (s : List Task) (title category due : String) : List Task :=
  s ++ [⟨nextId s, title, category, (parse_due_date nl today due).getD "",
    false, false⟩]

/-- `mark_done`: `UPDATE todos SET done=1 WHERE id=?`. -/
def mark_done (tid : Nat) (s : List Task) : List Task :=
  s.map fun r => if r.id = tid then { r with done := true } else r

/-- `delete_todo`: `UPDATE todos SET deleted=1 WHERE id=?`. -/
def delete_todo (tid : Nat) (s : List Task) : List Task :=
  s.map fun r => if r.id = tid then { r with deleted := true } else r

/-! ## SQLite `LIKE`

The search predicate is `title LIKE '%<query>%'`.  SQLite's default `LIKE`
is ASCII-case-insensitive; `%` matches any (possibly empty) sequence and
`_` matches exactly one character.  Implemented with a fuel argument (the
recursion decreases `pattern.length + text.length`, so
`pattern.length + text.length + 1` steps always suffice). -/

/-- One step bound for `sqliteLike`; recursion on explicit fuel. -/
def sqliteLikeFuel : Nat → List Char → List Char → Bool
  | 0, _, _ => false
  | _ + 1, [], t => t.isEmpty
  | fuel + 1, '%' :: p, t =>
    sqliteLikeFuel fuel p t ||
      (match t with
       | [] => false
       | _ :: t' => sqliteLikeFuel fuel ('%' :: p) t')
  | fuel + 1, '_' :: p, t =>
    (match t with
     | [] => false
     | _ :: t' => sqliteLikeFuel fuel p t')
  | fuel + 1, c :: p, t =>
    (match t with
     | [] => false
     | x :: t' => c.toLower == x.toLower && sqliteLikeFuel fuel p t')

/-- SQLite `pattern LIKE` matching (default, no `ESCAPE`):
ASCII-case-insensitive, `%` and `_` wildcards. -/
def sqliteLike (pattern text : List Char) : Bool :=
  sqliteLikeFuel (pattern.length + text.length + 1) pattern text

/-! ## Query predicates and the exposed queries

`main` keeps a `where_clause`/`params` pair that is one of: empty,
`AND category=?` with the tag, or `AND title LIKE ?` with `%query%`. -/

/-- The three shapes of the dashboard `where_clause`. -/
inductive Pred
  | pnone
  | categoryEquals (tag : String)
  | titleContains (q : String)
deriving DecidableEq, Repr

/-- Row-level meaning of the `where_clause`: SQL `category=?` is exact
string equality, `title LIKE ?` with parameter `'%' + q + '%'` is SQLite
`LIKE` matching. -/
def Pred.matches : Pred → Task → Bool
  | .pnone, _ => true
  | .categoryEquals tag, r => r.category == tag
  | .titleContains q, r => sqliteLike ("%" ++ q ++ "%").data r.title.data

/-- Descending-identity order used by `ORDER BY id DESC`. -/
def idGe (a b : Task) : Prop := b.id ≤ a.id

instance : DecidableRel idGe := fun a b => Nat.decLe b.id a.id

instance : IsTotal Task idGe :=
  ⟨fun a b => (Nat.le_total b.id a.id).imp (fun h => h) fun h => h⟩

instance : IsTrans Task idGe :=
  ⟨fun _ _ _ h h' => Nat.le_trans h' h⟩

/-- The dashboard query of `draw_dashboard`:
`SELECT ... WHERE deleted=0 AND done=0 {where_clause} ORDER BY id DESC`. -/
def listActive (p : Pred) (s : List Task) : List Task :=
  List.insertionSort idGe
    (s.filter fun r => !r.deleted && !r.done && p.matches r)

/-- The completed-view query of `draw_completed`:
`SELECT ... WHERE deleted=0 AND done=1 ORDER BY id DESC`. -/
def listCompleted (s : List Task) : List Task :=
  List.insertionSort idGe (s.filter fun r => !r.deleted && r.done)

/-- `get_stats`: `(COUNT(*) WHERE deleted=0 {w}, COUNT(*) WHERE done=1 AND
deleted=0 {w})`. -/
def get_stats (p : Pred) (s : List Task) : Nat × Nat :=
  (s.countP fun r => !r.deleted && p.matches r,
   s.countP fun r => r.done && !r.deleted && p.matches r)

/-! ## IEEE-754 double arithmetic for the progress percentage

`draw_dashboard` computes `int((done / total) * 100)`.  In Python `/` is
IEEE-754 double division and `* 100` an IEEE-754 double product, each
correctly rounded to nearest (ties to even), and `int` truncates toward
zero.  A nonnegative finite double is represented here as a pair
`(m, e) : Nat × Int` of value `m * 2 ^ e`, normalized to `2^52 ≤ m < 2^53`
(or `m = 0`).  Exponent bounds (overflow/underflow to subnormals) never
bind for quotients `done/total` with `0 < done ≤ total`, so they are not
modelled. -/

/-- Number of bits of `n` (`n.bit_length()`), by explicit fuel. -/
def bitlenAux : Nat → Nat → Nat
  | 0, _ => 0
  | fuel + 1, n => if n = 0 then 0 else bitlenAux fuel (n / 2) + 1

/-- Number of bits of `n`: `0` for `0`, otherwise `⌊log2 n⌋ + 1`. -/
def bitlen (n : Nat) : Nat := bitlenAux n n

/-- Round `num / den` to the nearest integer, ties to even. -/
def roundQuot (num den : Nat) : Nat :=
  let m0 := num / den
  let r := num % den
  if den < 2 * r then m0 + 1
  else if 2 * r < den then m0
  else if m0 % 2 = 1 then m0 + 1 else m0

/-- Correctly rounded double division `p / q` (`p ≥ 0`, `q ≥ 1`),
as a normalized pair `(mantissa, exponent)`. -/
def divFl (p q : Nat) : Nat × Int :=
  if p = 0 then (0, 0)
  else
    let t : Int := 53 + (bitlen q : Int) - (bitlen p : Int)
    let num := if 0 ≤ t then p * 2 ^ t.toNat else p
    let den := if 0 ≤ t then q else q * 2 ^ (-t).toNat
    let den' := if num / den < 2 ^ 53 then den else 2 * den
    let e : Int := if num / den < 2 ^ 53 then -t else 1 - t
    let m := roundQuot num den'
    if m = 2 ^ 53 then (2 ^ 52, e + 1) else (m, e)

/-- Correctly rounded double product with the exact constant `100.0`. -/
def mul100 (me : Nat × Int) : Nat × Int :=
  let m := me.1
  let e := me.2
  if m = 0 then (0, 0)
  else
    let n := m * 100
    let k := bitlen n - 53
    if k = 0 then (n, e)
    else
      let m1 := roundQuot n (2 ^ k)
      if m1 = 2 ^ 53 then (2 ^ 52, e + k + 1) else (m1, e + k)

/-- `int(x)` for a nonnegative double `(m, e)`: truncation toward zero. -/
def truncInt (me : Nat × Int) : Nat :=
  if 0 ≤ me.2 then me.1 * 2 ^ me.2.toNat else me.1 / 2 ^ (-me.2).toNat

/-- The dashboard progress value
`int((done / total) * 100) if total else 0`, under IEEE-754 double
semantics. -/
def progressPy (total done : Nat) : Nat :=
  if total = 0 then 0 else truncInt (mul100 (divFl done total))

/-- Modelled from the spec: the progress percentage the specification
prescribes, `floor(completed/total * 100)` if `total > 0` else `0`,
computed in exact rational arithmetic. -/
def progressSpec (total done : Nat) : Nat :=
  if total = 0 then 0 else done * 100 / total

/-! ## The view state machine of `main`

The mutable locals of `main` (`view`, `cursor_idx`, `where_clause/params`,
`subtitle`) together with the database connection form the state.  Each
loop iteration recomputes `todos` from the current predicate (dashboard
view only), reads one key and dispatches.  `q` breaks the loop and is not
a state transition; unrecognized keys leave the state unchanged. -/

/-- Which screen the loop is drawing. -/
inductive View
  | dashboard
  | completed
deriving DecidableEq, Repr

/-- The state of `main`'s loop: its mutable locals plus the store. -/
structure VState where
  view : View
  cursor : Int
  pred : Pred
  subtitle : String
  store : List Task
deriving DecidableEq, Repr

/-- One key event, with the text the prompts would read. -/
inductive Cmd
  | keyUp
  | keyDown
  | keyA (title category due : String)
  | keyD
  | keyX
  | keyC
  | keyF (tag : String)
  | keySlash (q : String)
  | keyB
deriving DecidableEq, Repr

/-- Placeholder row for list indexing; `todos[cursor_idx]` is only
evaluated when the cursor-bounds invariant holds, so it is never used. -/
def dummyTask : Task := ⟨0, "", "", "", false, false⟩

/-- The visible list computed at the top of the loop iteration:
the dashboard query in dashboard view, `[]` otherwise. -/
def visible (s : VState) : List Task :=
  if s.view = View.dashboard then listActive s.pred s.store else []

/-- One iteration of `main`'s loop: recompute `todos`, dispatch one key. -/
def step (nl : List Char → Option PDate) (today : PDate)
    (s : VState) (c : Cmd) : VState :=
  let todos := visible s
  if s.view = View.dashboard then
    match c with
    | .keyUp =>
      if todos.isEmpty then s
      else { s with cursor := (s.cursor - 1) % (todos.length : Int) }
    | .keyDown =>
      if todos.isEmpty then s
      else { s with cursor := (s.cursor + 1) % (todos.length : Int) }
    | .keyA title category due =>
      { s with store := add_todo nl today s.store title category due,
               cursor := 0, pred := .pnone, subtitle := "" }
    | .keyD =>
      if todos.isEmpty then s
      else { s with store := mark_done (todos.getD s.cursor.toNat dummyTask).id s.store,
                    cursor := 0 }
    | .keyX =>
      if todos.isEmpty then s
      else { s with store := delete_todo (todos.getD s.cursor.toNat dummyTask).id s.store,
                    cursor := 0 }
    | .keyC => { s with view := View.completed }
    | .keyF tag =>
      if tag = "" then s
      else { s with pred := .categoryEquals tag,
                    subtitle := "Filtered by #" ++ tag, cursor := 0 }
    | .keySlash q =>
      if q = "" then s
      else { s with pred := .titleContains q,
                    subtitle := "Search results for '" ++ q ++ "'", cursor := 0 }
    | .keyB => { s with pred := .pnone, subtitle := "", cursor := 0 }
  else
    match c with
    | .keyB => { s with view := View.dashboard, cursor := 0 }
    | _ => s

/-- The initial state of `main`: dashboard, cursor 0, no predicate, over
whatever rows the database file already holds. -/
def initState (store0 : List Task) : VState :=
  ⟨View.dashboard, 0, Pred.pnone, "", store0⟩

/-- Run a sequence of key events from a state. -/
def run (nl : List Char → Option PDate) (today : PDate)
    (s : VState) (cs : List Cmd) : VState :=
  cs.foldl (step nl today) s

/-! ## Shared query lemmas -/

/-- Membership in the dashboard query result. -/
theorem mem_listActive {p : Pred} {s : List Task} {t : Task} :
    t ∈ listActive p s ↔
      t ∈ s ∧ t.deleted = false ∧ t.done = false ∧ p.matches t = true := by
  unfold listActive
  rw [(List.perm_insertionSort idGe _).mem_iff, List.mem_filter]
  simp [and_assoc]

/-- Membership in the completed-view query result. -/
theorem mem_listCompleted {s : List Task} {t : Task} :
    t ∈ listCompleted s ↔ t ∈ s ∧ t.deleted = false ∧ t.done = true := by
  unfold listCompleted
  rw [(List.perm_insertionSort idGe _).mem_iff, List.mem_filter]
  simp [and_assoc]

/-- C1: `listActive(predicate)` returns exactly the non-deleted, non-done
tasks matching the predicate, ordered by identity descending, and
`listCompleted()` returns exactly the non-deleted done tasks, ordered by
identity descending. -/
theorem listActive_listCompleted_spec (p : Pred) (s : List Task) :
    (listActive p s).Perm
        (s.filter fun r => !r.deleted && !r.done && p.matches r) ∧
      (∀ t, t ∈ listActive p s ↔
        t ∈ s ∧ t.deleted = false ∧ t.done = false ∧ p.matches t = true) ∧
      (listActive p s).Sorted idGe ∧
      (listCompleted s).Perm (s.filter fun r => !r.deleted && r.done) ∧
      (∀ t, t ∈ listCompleted s ↔
        t ∈ s ∧ t.deleted = false ∧ t.done = true) ∧
      (listCompleted s).Sorted idGe :=
  ⟨List.perm_insertionSort idGe _, fun _ => mem_listActive,
    List.sorted_insertionSort idGe _, List.perm_insertionSort idGe _,
    fun _ => mem_listCompleted, List.sorted_insertionSort idGe _⟩

/-! ## Idempotence and totality of the update operations -/

/-- Updating a row that is not present changes nothing (`mark_done`). -/
theorem mark_done_not_mem (tid : Nat) (s : List Task)
    (h : tid ∉ s.map Task.id) : mark_done tid s = s := by
  induction s with
  | nil => rfl
  | cons r rs ih =>
    simp only [List.map_cons, List.mem_cons, not_or] at h
    simp only [mark_done, List.map_cons]
    rw [if_neg (fun hc => h.1 hc.symm)]
    exact congrArg (r :: ·) (ih h.2)

/-- Updating a row that is not present changes nothing (`delete_todo`). -/
theorem delete_todo_not_mem (tid : Nat) (s : List Task)
    (h : tid ∉ s.map Task.id) : delete_todo tid s = s := by
  induction s with
  | nil => rfl
  | cons r rs ih =>
    simp only [List.map_cons, List.mem_cons, not_or] at h
    simp only [delete_todo, List.map_cons]
    rw [if_neg (fun hc => h.1 hc.symm)]
    exact congrArg (r :: ·) (ih h.2)

/-- C5: `markDone` and `softDelete` are idempotent and total: applying
either twice equals applying it once, and applying either to a nonexistent
identity leaves the store unchanged (and no case is an error: both are
total functions). -/
theorem markDone_delete_idempotent (s : List Task) (tid : Nat) :
    mark_done tid (mark_done tid s) = mark_done tid s ∧
      delete_todo tid (delete_todo tid s) = delete_todo tid s ∧
      (tid ∉ s.map Task.id →
        mark_done tid s = s ∧ delete_todo tid s = s) := by
  refine ⟨?_, ?_, fun h => ⟨mark_done_not_mem tid s h, delete_todo_not_mem tid s h⟩⟩
  · unfold mark_done
    rw [List.map_map]
    refine List.map_congr_left fun r _ => ?_
    by_cases h : r.id = tid <;> simp [h]
  · unfold delete_todo
    rw [List.map_map]
    refine List.map_congr_left fun r _ => ?_
    by_cases h : r.id = tid <;> simp [h]

/-- Witness for C5 at a concrete store and a nonexistent identity. -/
theorem markDone_delete_idempotent_witness :
    (2 ∉ ([⟨1, "A", "w", "", false, false⟩] : List Task).map Task.id) ∧
      mark_done 2 [⟨1, "A", "w", "", false, false⟩] =
        [⟨1, "A", "w", "", false, false⟩] ∧
      delete_todo 2 [⟨1, "A", "w", "", false, false⟩] =
        [⟨1, "A", "w", "", false, false⟩] :=
  ⟨by decide,
    ((markDone_delete_idempotent [⟨1, "A", "w", "", false, false⟩] 2).2.2
      (by decide)).1,
    ((markDone_delete_idempotent [⟨1, "A", "w", "", false, false⟩] 2).2.2
      (by decide)).2⟩

/-! ## Frame property: `mark_done` on a soft-deleted record -/

/-- `mark_done` commutes away under any row test that ignores the `done`
flag of deleted rows, when every row with the target identity is deleted. -/
theorem filter_mark_done_eq (q : Task → Bool) (tid : Nat) (s : List Task)
    (h : ∀ r ∈ s, r.id = tid → r.deleted = true)
    (hq : ∀ r : Task, r.deleted = true →
      q { r with done := true } = false ∧ q r = false) :
    (mark_done tid s).filter q = s.filter q := by
  induction s with
  | nil => rfl
  | cons r rs ih =>
    have htail : ∀ r' ∈ rs, r'.id = tid → r'.deleted = true :=
      fun r' hr' => h r' (List.mem_cons_of_mem r hr')
    simp only [mark_done] at ih ⊢
    rw [List.map_cons]
    by_cases hid : r.id = tid
    · have hdel := h r (List.mem_cons_self r rs) hid
      rw [if_pos hid, List.filter_cons, List.filter_cons, (hq r hdel).1,
        (hq r hdel).2, ih htail]
      simp
    · rw [if_neg hid, List.filter_cons, List.filter_cons, ih htail]

/-- Same statement for `countP` instead of `filter`. -/
theorem countP_mark_done_eq (q : Task → Bool) (tid : Nat) (s : List Task)
    (h : ∀ r ∈ s, r.id = tid → r.deleted = true)
    (hq : ∀ r : Task, r.deleted = true →
      q { r with done := true } = false ∧ q r = false) :
    (mark_done tid s).countP q = s.countP q := by
  rw [List.countP_eq_length_filter, List.countP_eq_length_filter,
    filter_mark_done_eq q tid s h hq]

/-- C10: if every stored row with identity `tid` is soft-deleted, then
`markDone(tid)` changes no exposed query result: `listActive` (any
predicate), `listCompleted` and `get_stats` are unchanged, and the update
itself touches nothing but the `done` flag of the `tid` rows. -/
theorem markDone_deleted_frame (p : Pred) (tid : Nat) (s : List Task)
    (h : ∀ r ∈ s, r.id = tid → r.deleted = true) :
    listActive p (mark_done tid s) = listActive p s ∧
      listCompleted (mark_done tid s) = listCompleted s ∧
      get_stats p (mark_done tid s) = get_stats p s ∧
      List.Forall₂
        (fun r r' => r'.id = r.id ∧ r'.title = r.title ∧
          r'.category = r.category ∧ r'.due = r.due ∧
          r'.deleted = r.deleted ∧ (r.id ≠ tid → r'.done = r.done))
        s (mark_done tid s) := by
  refine ⟨?_, ?_, ?_, ?_⟩
  · unfold listActive
    rw [filter_mark_done_eq _ tid s h (fun r hr => by simp [hr])]
  · unfold listCompleted
    rw [filter_mark_done_eq _ tid s h (fun r hr => by simp [hr])]
  · unfold get_stats
    rw [countP_mark_done_eq _ tid s h (fun r hr => by simp [hr]),
      countP_mark_done_eq _ tid s h (fun r hr => by simp [hr])]
  · unfold mark_done
    rw [List.forall₂_map_right_iff]
    refine List.forall₂_same.2 fun r _ => ?_
    by_cases hid : r.id = tid <;> simp [hid]

/-- Witness for C10: a store whose only row is done-flagged while already
deleted; every exposed query is unchanged. -/
theorem markDone_deleted_frame_witness :
    (∀ r ∈ ([⟨1, "A", "w", "", false, true⟩] : List Task),
        r.id = 1 → r.deleted = true) ∧
      listActive Pred.pnone (mark_done 1 [⟨1, "A", "w", "", false, true⟩]) =
        listActive Pred.pnone [⟨1, "A", "w", "", false, true⟩] ∧
      get_stats Pred.pnone (mark_done 1 [⟨1, "A", "w", "", false, true⟩]) =
        get_stats Pred.pnone [⟨1, "A", "w", "", false, true⟩] :=
  ⟨by decide,
    (markDone_deleted_frame Pred.pnone 1 _ (by decide)).1,
    (markDone_deleted_frame Pred.pnone 1 _ (by decide)).2.2.1⟩

/-! ## Permanence of soft deletion -/

/-- A `dateutil` oracle that always fails; used to instantiate witnesses. -/
def nlW : List Char → Option PDate := fun _ => none

/-- A fixed current date for witnesses (the spec's example date). -/
def dW : PDate := ⟨2025, 1, 10⟩

/-- One mutating store operation of the adapter. -/
inductive StoreOp
  | add (title category due : String)
  | markDone (tid : Nat)
  | softDelete (tid : Nat)
deriving DecidableEq, Repr

/-- Apply one store operation. -/
def applyOp (nl : List Char → Option PDate) (today : PDate)
    (s : List Task) : StoreOp → List Task
  | .add title category due => add_todo nl today s title category due
  | .markDone tid => mark_done tid s
  | .softDelete tid => delete_todo tid s

/-- Apply a sequence of store operations, oldest first. -/
def applyOps (nl : List Char → Option PDate) (today : PDate)
    (s : List Task) (ops : List StoreOp) : List Task :=
  ops.foldl (applyOp nl today) s

/-- Every task identity present in a store is below the next fresh one. -/
theorem id_lt_nextId {tid : Nat} {s : List Task}
    (h : tid ∈ s.map Task.id) : tid < nextId s := by
  unfold nextId
  have : ∀ l : List Nat, ∀ a ∈ l, a ≤ l.foldr max 0 := by
    intro l
    induction l with
    | nil => intro a ha; cases ha
    | cons x xs ih =>
      intro a ha
      rcases List.mem_cons.1 ha with rfl | ha
      · exact Nat.le_max_left _ _
      · exact Nat.le_trans (ih a ha) (Nat.le_max_right _ _)
  exact Nat.lt_succ_of_le (this _ tid h)

/-- The invariant tracked through the operation sequence: a row with the
identity exists, and every row with that identity is soft-deleted. -/
def DeletedAt (tid : Nat) (s : List Task) : Prop :=
  tid ∈ s.map Task.id ∧ ∀ r ∈ s, r.id = tid → r.deleted = true

/-- `mark_done` and `delete_todo` do not change the stored identities. -/
theorem map_id_update (tid : Nat) (s : List Task) :
    (mark_done tid s).map Task.id = s.map Task.id ∧
      (delete_todo tid s).map Task.id = s.map Task.id := by
  constructor
  · unfold mark_done
    rw [List.map_map]
    refine List.map_congr_left fun r _ => ?_
    by_cases h : r.id = tid <;> simp [h]
  · unfold delete_todo
    rw [List.map_map]
    refine List.map_congr_left fun r _ => ?_
    by_cases h : r.id = tid <;> simp [h]

/-- One store operation preserves the deletion invariant. -/
theorem deletedAt_applyOp (nl : List Char → Option PDate) (today : PDate)
    (tid : Nat) (s : List Task) (op : StoreOp) (h : DeletedAt tid s) :
    DeletedAt tid (applyOp nl today s op) := by
  obtain ⟨hmem, hdel⟩ := h
  cases op with
  | add title category due =>
    refine ⟨?_, ?_⟩
    · unfold applyOp add_todo
      rw [List.map_append]
      exact List.mem_append_left _ hmem
    · intro r hr hid
      unfold applyOp add_todo at hr
      rcases List.mem_append.1 hr with hr | hr
      · exact hdel r hr hid
      · rcases List.mem_singleton.1 hr with rfl
        exact absurd (hid ▸ id_lt_nextId hmem) (lt_irrefl _)
  | markDone tid' =>
    refine ⟨(map_id_update tid' s).1 ▸ hmem, ?_⟩
    intro r hr hid
    unfold applyOp mark_done at hr
    rcases List.mem_map.1 hr with ⟨r₀, hr₀, rfl⟩
    by_cases h0 : r₀.id = tid'
    · simp only [if_pos h0] at hid ⊢
      exact hdel r₀ hr₀ hid
    · simp only [if_neg h0] at hid ⊢
      exact hdel r₀ hr₀ hid
  | softDelete tid' =>
    refine ⟨(map_id_update tid' s).2 ▸ hmem, ?_⟩
    intro r hr hid
    unfold applyOp delete_todo at hr
    rcases List.mem_map.1 hr with ⟨r₀, hr₀, rfl⟩
    by_cases h0 : r₀.id = tid'
    · simp [if_pos h0]
    · simp only [if_neg h0] at hid ⊢
      exact hdel r₀ hr₀ hid

/-- A whole operation sequence preserves the deletion invariant. -/
theorem deletedAt_applyOps (nl : List Char → Option PDate) (today : PDate)
    (tid : Nat) (s : List Task) (ops : List StoreOp) (h : DeletedAt tid s) :
    DeletedAt tid (applyOps nl today s ops) := by
  induction ops generalizing s with
  | nil => exact h
  | cons op ops ih => exact ih _ (deletedAt_applyOp nl today tid s op h)

/-- `delete_todo` establishes the invariant for a present identity. -/
theorem deletedAt_delete_todo (tid : Nat) (s : List Task)
    (h : tid ∈ s.map Task.id) : DeletedAt tid (delete_todo tid s) := by
  refine ⟨(map_id_update tid s).2 ▸ h, ?_⟩
  intro r hr hid
  unfold delete_todo at hr
  rcases List.mem_map.1 hr with ⟨r₀, hr₀, rfl⟩
  by_cases h0 : r₀.id = tid
  · simp [if_pos h0]
  · simp only [if_neg h0] at hid
    exact absurd hid h0

/-- Dropping rows that fail a test no exposed counter ever counts does not
change `countP`. -/
theorem countP_filter_of_irrelevant (q w : Task → Bool) (s : List Task)
    (h : ∀ r ∈ s, w r = false → q r = false) :
    (s.filter w).countP q = s.countP q := by
  induction s with
  | nil => rfl
  | cons r rs ih =>
    have htail := fun r' hr' => h r' (List.mem_cons_of_mem r hr')
    rw [List.filter_cons, List.countP_cons]
    by_cases hw : w r = true
    · rw [if_pos hw, List.countP_cons, ih htail]
    · have hq := h r (List.mem_cons_self r rs) (Bool.eq_false_iff.2 hw)
      rw [if_neg hw, ih htail, hq]
      simp

/-- C2: once `softDelete(tid)` is applied to a store holding identity
`tid`, then after any further sequence of store operations every row with
that identity is still soft-deleted, `tid` appears in no `listActive` or
`listCompleted` result, the stats never count it (dropping its rows leaves
`get_stats` unchanged), and no operation ever clears a `deleted` flag that
the invariant tracks. -/
theorem softDelete_permanent (nl : List Char → Option PDate) (today : PDate)
    (p : Pred) (tid : Nat) (s : List Task) (ops : List StoreOp)
    (ht : tid ∈ s.map Task.id) :
    (∀ r ∈ applyOps nl today (delete_todo tid s) ops, r.id = tid →
        r.deleted = true) ∧
      (∀ r ∈ listActive p (applyOps nl today (delete_todo tid s) ops),
        r.id ≠ tid) ∧
      (∀ r ∈ listCompleted (applyOps nl today (delete_todo tid s) ops),
        r.id ≠ tid) ∧
      get_stats p (applyOps nl today (delete_todo tid s) ops) =
        get_stats p
          ((applyOps nl today (delete_todo tid s) ops).filter
            fun r => r.id ≠ tid) ∧
      (∀ (op : StoreOp) (s' : List Task), DeletedAt tid s' →
        ∀ r ∈ applyOp nl today s' op, r.id = tid → r.deleted = true) := by
  have hinv : DeletedAt tid (applyOps nl today (delete_todo tid s) ops) :=
    deletedAt_applyOps nl today tid _ ops (deletedAt_delete_todo tid s ht)
  obtain ⟨-, hdel⟩ := hinv
  refine ⟨hdel, ?_, ?_, ?_, ?_⟩
  · intro r hr hid
    obtain ⟨hmem, hd, -⟩ := mem_listActive.1 hr
    exact Bool.false_ne_true (hd ▸ hdel r hmem hid)
  · intro r hr hid
    obtain ⟨hmem, hd, -⟩ := mem_listCompleted.1 hr
    exact Bool.false_ne_true (hd ▸ hdel r hmem hid)
  · unfold get_stats
    rw [countP_filter_of_irrelevant, countP_filter_of_irrelevant]
    · intro r hr hw
      have hid : r.id = tid := by
        by_contra hc
        simp [hc] at hw
      simp [hdel r hr hid]
    · intro r hr hw
      have hid : r.id = tid := by
        by_contra hc
        simp [hc] at hw
      simp [hdel r hr hid]
  · intro op s' hs'
    exact (deletedAt_applyOp nl today tid s' op hs').2

/-- Witness for C2 at a concrete one-row store and a singleton
operation sequence. -/
theorem softDelete_permanent_witness :
    (1 ∈ ([⟨1, "A", "w", "", false, false⟩] : List Task).map Task.id) ∧
      ∀ r ∈ applyOps nlW dW (delete_todo 1 [⟨1, "A", "w", "", false, false⟩])
          [StoreOp.markDone 1],
        r.id = 1 → r.deleted = true :=
  ⟨by decide,
    (softDelete_permanent nlW dW Pred.pnone 1 _ [StoreOp.markDone 1]
      (by decide)).1⟩

/-! ## The normalizer's shortcut rules -/

/-- `endswith` over an explicit final character. -/
theorem endsWithChar_concat (c a : Char) (l : List Char) :
    endsWithChar c (l ++ [a]) = (a == c) := by
  simp [endsWithChar, List.getLast?_concat]

/-- `s[1:-1]` of a string written as first character, middle, last
character. -/
theorem innerChars_cons_concat (a b : Char) (m : List Char) :
    innerChars (a :: (m ++ [b])) = m := by
  simp [innerChars, List.dropLast_concat]

/-- C3: the shortcut rules of the normalizer: after stripping and
lowering, the empty string maps to the empty string, `today` to today's
ISO date, `tomorrow` to today + 1 day, `+Nd` (digits only) to today + N
days and `+Nw` to today + N weeks, *whenever that date arithmetic is
representable*; with today = 2025-01-10 the inputs `today`, `tomorrow`,
`+3d`, `+2w` yield `2025-01-10`, `2025-01-11`, `2025-01-13`,
`2025-01-24`.  Outside the representable range the claim fails on the
code: `+1000000000d` exceeds the `timedelta` day cap and `+2d` from
9999-12-30 passes `date.max`, and in both cases the shortcut branch —
outside the `try`, which wraps only `dateutil` — raises an uncaught
`OverflowError` (`none`) instead of returning a string. -/
theorem normalizer_shortcuts (nl : List Char → Option PDate)
    (today : PDate) :
    normCoreList nl today [] = some "" ∧
      normCoreList nl today "today".data = some (toISO today) ∧
      (∀ r : PDate, addDays today 1 = some r →
        normCoreList nl today "tomorrow".data = some (toISO r)) ∧
      (∀ m : List Char, allDigits m = true →
        (∀ r : PDate, addDays today (digitsVal m) = some r →
          normCoreList nl today ('+' :: (m ++ ['d'])) = some (toISO r)) ∧
        (∀ r : PDate, addDays today (7 * digitsVal m) = some r →
          normCoreList nl today ('+' :: (m ++ ['w'])) = some (toISO r))) ∧
      parse_due_date nl ⟨2025, 1, 10⟩ "today" = some "2025-01-10" ∧
      parse_due_date nl ⟨2025, 1, 10⟩ "tomorrow" = some "2025-01-11" ∧
      parse_due_date nl ⟨2025, 1, 10⟩ "+3d" = some "2025-01-13" ∧
      parse_due_date nl ⟨2025, 1, 10⟩ "+2w" = some "2025-01-24" ∧
      parse_due_date nl ⟨2025, 1, 10⟩ "+1000000000d" = none ∧
      parse_due_date nl ⟨9999, 12, 30⟩ "+2d" = none := by
  refine ⟨rfl, rfl, ?_, ?_, rfl, rfl, rfl, rfl, rfl, rfl⟩
  · intro r hr
    show (addDays today 1).map toISO = some (toISO r)
    rw [hr]
    rfl
  intro m hm
  have htoday : ∀ b : Char, ('+' :: (m ++ [b])) ≠ "today".data := by
    intro b h
    rw [show "today".data = ['t', 'o', 'd', 'a', 'y'] from rfl] at h
    exact absurd (List.cons.inj h).1 (by decide)
  have htom : ∀ b : Char, ('+' :: (m ++ [b])) ≠ "tomorrow".data := by
    intro b h
    rw [show "tomorrow".data = ['t', 'o', 'm', 'o', 'r', 'r', 'o', 'w']
      from rfl] at h
    exact absurd (List.cons.inj h).1 (by decide)
  have hewd : endsWithChar 'd' ('+' :: (m ++ ['d'])) = true := by
    simpa using endsWithChar_concat 'd' 'd' ('+' :: m)
  have heww : endsWithChar 'w' ('+' :: (m ++ ['w'])) = true := by
    simpa using endsWithChar_concat 'w' 'w' ('+' :: m)
  have hewdw : endsWithChar 'd' ('+' :: (m ++ ['w'])) = false := by
    simpa using endsWithChar_concat 'd' 'w' ('+' :: m)
  constructor
  · intro r hr
    rw [normCoreList, if_neg (by simp), if_neg (htoday 'd'), if_neg (htom 'd'),
      if_pos]
    · rw [innerChars_cons_concat, hr]
      rfl
    · simp [startsWithPlus, hewd, innerChars_cons_concat, hm]
  · intro r hr
    rw [normCoreList, if_neg (by simp), if_neg (htoday 'w'), if_neg (htom 'w'),
      if_neg, if_pos]
    · rw [innerChars_cons_concat, hr]
      rfl
    · simp [startsWithPlus, heww, innerChars_cons_concat, hm]
    · simp [hewdw]

/-- Witness for C3 at `N = 3` (days) and `N = 2` (weeks), both
representable from 2025-01-10. -/
theorem normalizer_shortcuts_witness :
    allDigits ['3'] = true ∧
      addDays dW (digitsVal ['3']) = some ⟨2025, 1, 13⟩ ∧
      normCoreList nlW dW ('+' :: (['3'] ++ ['d'])) =
        some (toISO ⟨2025, 1, 13⟩) ∧
      addDays dW (7 * digitsVal ['2']) = some ⟨2025, 1, 24⟩ ∧
      normCoreList nlW dW ('+' :: (['2'] ++ ['w'])) =
        some (toISO ⟨2025, 1, 24⟩) :=
  ⟨by decide, by decide,
    ((normalizer_shortcuts nlW dW).2.2.2.1 ['3'] (by decide)).1
      ⟨2025, 1, 13⟩ (by decide),
    by decide,
    ((normalizer_shortcuts nlW dW).2.2.2.1 ['2'] (by decide)).2
      ⟨2025, 1, 24⟩ (by decide)⟩

/-! ## Fallback pass-through of the normalizer

The source returns `s` after `s = s.strip().lower()`, so the value passed
through on a parse failure is the *lower-cased* trimmed input, not the
trimmed input itself. -/

/-- C4 counterexample: on the shortcut-free, parse-failing input
`"XYZZY"`, the normalizer returns `"xyzzy"`, not the original trimmed
input `"XYZZY"`. -/
theorem normalizer_passthrough_counterexample :
    matchesShortcut (pyLower (pyStrip "XYZZY".data)) = false ∧
      nlW (pyLower (pyStrip "XYZZY".data)) = none ∧
      String.mk (pyStrip "XYZZY".data) = "XYZZY" ∧
      parse_due_date nlW dW "XYZZY" = some "xyzzy" ∧
      ("xyzzy" : String) ≠ "XYZZY" :=
  ⟨by decide, rfl, by decide, by decide, by decide⟩

/-- C4 (amended): on an input whose stripped, lowered form matches no
shortcut rule and that the `dateutil` fallback fails on, the normalizer
returns the stripped, *lower-cased* input unchanged. -/
theorem normalizer_passthrough_lowercased (nl : List Char → Option PDate)
    (today : PDate) (s : String)
    (h1 : matchesShortcut (pyLower (pyStrip s.data)) = false)
    (h2 : nl (pyLower (pyStrip s.data)) = none) :
    parse_due_date nl today s = some (String.mk (pyLower (pyStrip s.data))) := by
  unfold parse_due_date normCoreList
  simp only [matchesShortcut, Bool.or_eq_false_iff] at h1
  obtain ⟨⟨⟨⟨he, ht⟩, htm⟩, hd⟩, hw⟩ := h1
  rw [if_neg (by simpa using he), if_neg (by simpa using ht),
    if_neg (by simpa using htm), if_neg (by simp [hd]),
    if_neg (by simp [hw]), h2]

/-- Witness for the amended C4 on the concrete input `"XYZZY"`. -/
theorem normalizer_passthrough_lowercased_witness :
    matchesShortcut (pyLower (pyStrip "XYZZY  ".data)) = false ∧
      parse_due_date nlW dW "XYZZY  " =
        some (String.mk (pyLower (pyStrip "XYZZY  ".data))) :=
  ⟨by decide,
    normalizer_passthrough_lowercased nlW dW "XYZZY  " (by decide) rfl⟩

/-! ## Cursor movement -/

/-- Python's `-1 % N` for positive `N`: the result is `N - 1`. -/
theorem neg_one_emod (N : Int) (h : 0 < N) : (-1 : Int) % N = N - 1 := by
  have e : (-1 : Int) = (N - 1) + N * (-1) := by ring
  rw [e, Int.add_mul_emod_self_left, Int.emod_eq_of_lt (by omega) (by omega)]

/-- C6: in the dashboard with `N > 0` visible tasks, `KEY_UP` and
`KEY_DOWN` move the cursor modulo `N` (up from 0 gives `N - 1`, down from
`N - 1` gives 0), and with an empty visible list both keys leave the whole
state unchanged. -/
theorem moveCursor_wraps (nl : List Char → Option PDate) (today : PDate)
    (s : VState) (h : s.view = View.dashboard) :
    (listActive s.pred s.store ≠ [] →
      step nl today s Cmd.keyUp =
          { s with cursor :=
              (s.cursor - 1) % ((listActive s.pred s.store).length : Int) } ∧
        step nl today s Cmd.keyDown =
          { s with cursor :=
              (s.cursor + 1) % ((listActive s.pred s.store).length : Int) } ∧
        (s.cursor = 0 → (step nl today s Cmd.keyUp).cursor =
          ((listActive s.pred s.store).length : Int) - 1) ∧
        (s.cursor = ((listActive s.pred s.store).length : Int) - 1 →
          (step nl today s Cmd.keyDown).cursor = 0)) ∧
      (listActive s.pred s.store = [] →
        step nl today s Cmd.keyUp = s ∧ step nl today s Cmd.keyDown = s) := by
  have hvis : visible s = listActive s.pred s.store := by
    unfold visible
    rw [if_pos h]
  constructor
  · intro hne
    have hlen : 0 < ((listActive s.pred s.store).length : Int) := by
      have := List.length_pos.2 hne
      omega
    have hup : step nl today s Cmd.keyUp =
        { s with cursor :=
            (s.cursor - 1) % ((listActive s.pred s.store).length : Int) } := by
      unfold step
      rw [if_pos h]
      simp only [hvis, List.isEmpty_iff]
      rw [if_neg hne]
    have hdown : step nl today s Cmd.keyDown =
        { s with cursor :=
            (s.cursor + 1) % ((listActive s.pred s.store).length : Int) } := by
      unfold step
      rw [if_pos h]
      simp only [hvis, List.isEmpty_iff]
      rw [if_neg hne]
    refine ⟨hup, hdown, fun h0 => ?_, fun hN => ?_⟩
    · rw [hup, h0]
      simpa using neg_one_emod _ hlen
    · rw [hdown, hN]
      simp

  · intro hemp
    have he : (visible s).isEmpty = true := by
      rw [hvis, hemp]
      rfl
    constructor <;>
      · unfold step
        rw [if_pos h]
        simp only [he]
        rfl

/-- Witness for C6: a two-task dashboard, cursor at 0; `KEY_UP` wraps to
1 and `KEY_DOWN` from 1 wraps to 0. -/
theorem moveCursor_wraps_witness :
    ((⟨View.dashboard, 0, Pred.pnone, "",
        [⟨1, "A", "w", "", false, false⟩, ⟨2, "B", "w", "", false, false⟩]⟩ :
          VState).view = View.dashboard) ∧
      listActive Pred.pnone
          [⟨1, "A", "w", "", false, false⟩, ⟨2, "B", "w", "", false, false⟩] ≠
        [] ∧
      (step nlW dW
          ⟨View.dashboard, 0, Pred.pnone, "",
            [⟨1, "A", "w", "", false, false⟩,
              ⟨2, "B", "w", "", false, false⟩]⟩ Cmd.keyUp).cursor =
        ((listActive Pred.pnone
            [⟨1, "A", "w", "", false, false⟩,
              ⟨2, "B", "w", "", false, false⟩]).length : Int) - 1 :=
  ⟨rfl, by decide,
    ((moveCursor_wraps nlW dW _ rfl).1 (by decide)).2.2.1 rfl⟩

/-! ## Search semantics

The spec's `TitleContains` is literal substring containment; the code's
`title LIKE '%q%'` is SQLite matching, ASCII-case-insensitive and with
`%`/`_` wildcards, so the two disagree. -/

/-- `q` is a prefix of `t` (character-exact). -/
def prefixMatch : List Char → List Char → Bool
  | [], _ => true
  | _ :: _, [] => false
  | a :: q, b :: t => a == b && prefixMatch q t

/-- `q` occurs contiguously somewhere in `t` (character-exact). -/
def substrMatch : List Char → List Char → Bool
  | q, [] => q.isEmpty
  | q, c :: t => prefixMatch q (c :: t) || substrMatch q t

/-- Modelled from the spec: "title contains q as a substring", literal
(case-sensitive) containment. -/
def specTitleContains (q t : String) : Bool :=
  substrMatch q.data t.data

/-- C7 counterexample: searching for `"A"` over a store whose only active
task is titled `"apple"` puts that task in the visible list (SQLite `LIKE`
is ASCII-case-insensitive), although `"apple"` does not contain `"A"` as a
substring. -/
theorem setSearch_substring_counterexample :
    (step nlW dW
          (initState [⟨1, "apple", "w", "", false, false⟩])
          (Cmd.keySlash "A")).pred = Pred.titleContains "A" ∧
      (⟨1, "apple", "w", "", false, false⟩ : Task) ∈
        listActive (Pred.titleContains "A")
          [⟨1, "apple", "w", "", false, false⟩] ∧
      specTitleContains "A" "apple" = false := by
  refine ⟨by decide, by decide, by decide⟩

/-- C7 (amended): an empty search query changes nothing; a non-empty query
`q` sets the predicate to `TitleContains q`, the search subtitle and
cursor 0, after which the visible list holds exactly the active tasks
whose title matches `%q%` under SQLite `LIKE` semantics
(ASCII-case-insensitive, `%`/`_` wildcards). -/
theorem setSearch_like_semantics (nl : List Char → Option PDate)
    (today : PDate) (s : VState) (q : String)
    (h : s.view = View.dashboard) :
    step nl today s (Cmd.keySlash "") = s ∧
      (q ≠ "" →
        step nl today s (Cmd.keySlash q) =
            { s with pred := Pred.titleContains q,
                     subtitle := "Search results for '" ++ q ++ "'",
                     cursor := 0 } ∧
          ∀ t, t ∈ listActive (Pred.titleContains q) s.store ↔
            t ∈ s.store ∧ t.deleted = false ∧ t.done = false ∧
              sqliteLike ("%" ++ q ++ "%").data t.title.data = true) := by
  constructor
  · unfold step
    rw [if_pos h]
    simp
  · intro hq
    constructor
    · unfold step
      rw [if_pos h]
      simp only []
      rw [if_neg hq]
    · intro t
      rw [mem_listActive]
      rfl

/-- Witness for C7: concrete search `"A"` over the `"apple"` store. -/
theorem setSearch_like_semantics_witness :
    (("A" : String) ≠ "") ∧
      step nlW dW (initState [⟨1, "apple", "w", "", false, false⟩])
          (Cmd.keySlash "A") =
        { initState [⟨1, "apple", "w", "", false, false⟩] with
            pred := Pred.titleContains "A",
            subtitle := "Search results for '" ++ "A" ++ "'",
            cursor := 0 } :=
  ⟨by decide,
    ((setSearch_like_semantics nlW dW
        (initState [⟨1, "apple", "w", "", false, false⟩]) "A" rfl).2
      (by decide)).1⟩

/-! ## Progress percentage -/

/-- C8: the code's progress value `int((done / total) * 100)` is computed
in IEEE-754 double arithmetic and is *not* `floor(done/total * 100)` for
every stats pair: at `(3, 1)` both give 33 (not 34), but at `(100, 29)`
the double product `0.29 * 100` rounds to `28.999999999999996`, so the
code shows 28 while the specified floor is 29. -/
theorem progress_float_divergence :
    progressPy 3 1 = 33 ∧ progressSpec 3 1 = 33 ∧
      progressPy 100 29 = 28 ∧ progressSpec 100 29 = 29 ∧
      progressPy 100 29 ≠ progressSpec 100 29 := by
  refine ⟨by decide, by decide, by decide, by decide, by decide⟩

/-! ## The cursor-bounds invariant of the interaction loop -/

/-- Cursor soundness at render time: whenever the dashboard is the current
view, the cursor is 0 or a valid index into its visible list. -/
def CursorInv (s : VState) : Prop :=
  s.view = View.dashboard →
    s.cursor = 0 ∨
      (0 ≤ s.cursor ∧
        s.cursor < ((listActive s.pred s.store).length : Int))

/-- Every key dispatch of the loop preserves cursor soundness. -/
theorem cursorInv_step (nl : List Char → Option PDate) (today : PDate)
    (s : VState) (c : Cmd) (h : CursorInv s) :
    CursorInv (step nl today s c) := by
  by_cases hv : s.view = View.dashboard
  · have hvl : visible s = listActive s.pred s.store := by
      unfold visible
      rw [if_pos hv]
    cases c with
    | keyUp =>
      by_cases hemp : (visible s).isEmpty = true
      · have hid : step nl today s Cmd.keyUp = s := by
          simp [step, hv, hemp]
        rw [hid]
        exact h
      · have hne : listActive s.pred s.store ≠ [] := by
          rw [← hvl]
          simpa [List.isEmpty_iff] using hemp
        have hN : 0 < ((listActive s.pred s.store).length : Int) := by
          have := List.length_pos.2 hne
          omega
        have hstep : step nl today s Cmd.keyUp =
            { s with cursor :=
                (s.cursor - 1) %
                  ((listActive s.pred s.store).length : Int) } := by
          unfold step
          rw [if_pos hv]
          simp only [hvl, List.isEmpty_iff]
          rw [if_neg hne]
        intro _
        right
        rw [hstep]
        exact ⟨Int.emod_nonneg _ (by omega), Int.emod_lt_of_pos _ hN⟩
    | keyDown =>
      by_cases hemp : (visible s).isEmpty = true
      · have hid : step nl today s Cmd.keyDown = s := by
          simp [step, hv, hemp]
        rw [hid]
        exact h
      · have hne : listActive s.pred s.store ≠ [] := by
          rw [← hvl]
          simpa [List.isEmpty_iff] using hemp
        have hN : 0 < ((listActive s.pred s.store).length : Int) := by
          have := List.length_pos.2 hne
          omega
        have hstep : step nl today s Cmd.keyDown =
            { s with cursor :=
                (s.cursor + 1) %
                  ((listActive s.pred s.store).length : Int) } := by
          unfold step
          rw [if_pos hv]
          simp only [hvl, List.isEmpty_iff]
          rw [if_neg hne]
        intro _
        right
        rw [hstep]
        exact ⟨Int.emod_nonneg _ (by omega), Int.emod_lt_of_pos _ hN⟩
    | keyA title category due =>
      intro _
      left
      simp [step, hv]
    | keyD =>
      by_cases hemp : (visible s).isEmpty = true
      · have hid : step nl today s Cmd.keyD = s := by
          simp [step, hv, hemp]
        rw [hid]
        exact h
      · intro _
        left
        simp [step, hv, hemp]
    | keyX =>
      by_cases hemp : (visible s).isEmpty = true
      · have hid : step nl today s Cmd.keyX = s := by
          simp [step, hv, hemp]
        rw [hid]
        exact h
      · intro _
        left
        simp [step, hv, hemp]
    | keyC =>
      intro hc
      have : (step nl today s Cmd.keyC).view = View.completed := by
        simp [step, hv]
      rw [this] at hc
      exact absurd hc (by simp)
    | keyF tag =>
      by_cases htag : tag = ""
      · have hid : step nl today s (Cmd.keyF tag) = s := by
          simp [step, hv, htag]
        rw [hid]
        exact h
      · intro _
        left
        simp [step, hv, htag]
    | keySlash q =>
      by_cases hq : q = ""
      · have hid : step nl today s (Cmd.keySlash q) = s := by
          simp [step, hv, hq]
        rw [hid]
        exact h
      · intro _
        left
        simp [step, hv, hq]
    | keyB =>
      intro _
      left
      simp [step, hv]
  · cases c with
    | keyB =>
      intro _
      left
      simp [step, hv]
    | keyUp =>
      have hid : step nl today s Cmd.keyUp = s := by simp [step, hv]
      rw [hid]; exact h
    | keyDown =>
      have hid : step nl today s Cmd.keyDown = s := by simp [step, hv]
      rw [hid]; exact h
    | keyA title category due =>
      have hid : step nl today s (Cmd.keyA title category due) = s := by
        simp [step, hv]
      rw [hid]; exact h
    | keyD =>
      have hid : step nl today s Cmd.keyD = s := by simp [step, hv]
      rw [hid]; exact h
    | keyX =>
      have hid : step nl today s Cmd.keyX = s := by simp [step, hv]
      rw [hid]; exact h
    | keyC =>
      have hid : step nl today s Cmd.keyC = s := by simp [step, hv]
      rw [hid]; exact h
    | keyF tag =>
      have hid : step nl today s (Cmd.keyF tag) = s := by simp [step, hv]
      rw [hid]; exact h
    | keySlash q =>
      have hid : step nl today s (Cmd.keySlash q) = s := by simp [step, hv]
      rw [hid]; exact h

/-- Cursor soundness holds after any run of the loop. -/
theorem cursorInv_run (nl : List Char → Option PDate) (today : PDate)
    (s : VState) (cmds : List Cmd) (h : CursorInv s) :
    CursorInv (run nl today s cmds) := by
  induction cmds generalizing s with
  | nil => exact h
  | cons c cmds ih => exact ih _ (cursorInv_step nl today s c h)

/-- C9: in every loop state reachable from the initial state, whenever the
dashboard is rendered the cursor is in bounds: 0 on an empty visible list,
otherwise a valid index of the visible list. -/
theorem cursor_in_bounds (nl : List Char → Option PDate) (today : PDate)
    (store0 : List Task) (cmds : List Cmd)
    (h : (run nl today (initState store0) cmds).view = View.dashboard) :
    (listActive (run nl today (initState store0) cmds).pred
          (run nl today (initState store0) cmds).store = [] →
        (run nl today (initState store0) cmds).cursor = 0) ∧
      (listActive (run nl today (initState store0) cmds).pred
          (run nl today (initState store0) cmds).store ≠ [] →
        0 ≤ (run nl today (initState store0) cmds).cursor ∧
          (run nl today (initState store0) cmds).cursor <
            ((listActive (run nl today (initState store0) cmds).pred
                (run nl today (initState store0) cmds).store).length :
              Int)) := by
  have hinv := cursorInv_run nl today (initState store0) cmds
    (fun _ => Or.inl rfl) h
  constructor
  · intro hemp
    rcases hinv with h0 | ⟨h1, h2⟩
    · exact h0
    · rw [hemp] at h2
      simp at h2
      omega
  · intro hne
    have hN : 0 < ((listActive (run nl today (initState store0) cmds).pred
        (run nl today (initState store0) cmds).store).length : Int) := by
      have := List.length_pos.2 hne
      omega
    rcases hinv with h0 | ⟨h1, h2⟩
    · rw [h0]
      exact ⟨le_refl 0, hN⟩
    · exact ⟨h1, h2⟩

/-- Witness for C9: starting over a one-task store and pressing the down
key once, the rendered dashboard cursor is in bounds. -/
theorem cursor_in_bounds_witness :
    ((run nlW dW (initState [⟨1, "A", "w", "", false, false⟩])
          [Cmd.keyDown]).view = View.dashboard) ∧
      (listActive (run nlW dW (initState [⟨1, "A", "w", "", false, false⟩])
            [Cmd.keyDown]).pred
          (run nlW dW (initState [⟨1, "A", "w", "", false, false⟩])
            [Cmd.keyDown]).store ≠ [] →
        0 ≤ (run nlW dW (initState [⟨1, "A", "w", "", false, false⟩])
              [Cmd.keyDown]).cursor ∧
          (run nlW dW (initState [⟨1, "A", "w", "", false, false⟩])
              [Cmd.keyDown]).cursor <
            ((listActive
                (run nlW dW (initState [⟨1, "A", "w", "", false, false⟩])
                  [Cmd.keyDown]).pred
                (run nlW dW (initState [⟨1, "A", "w", "", false, false⟩])
                  [Cmd.keyDown]).store).length : Int)) :=
  ⟨by decide,
    (cursor_in_bounds nlW dW [⟨1, "A", "w", "", false, false⟩] [Cmd.keyDown]
      (by decide)).2⟩

end Planner
